import Mathlib

/-
Verification development for the Vocab Highlighter browser extension.

The development shallowly embeds the extension's JavaScript into Lean:

* the vocabulary store of the background script (saveVocabEntry,
  deleteVocabEntry, updateVocabEntry) as pure functions on lists of
  entries, with the promise write queue (serializedWrite) modelled both
  as an interleaving semantics over read and write events and as a
  settled/rejected promise chain;
* the content script's context-window extraction
  (getEnclosingParagraphText) over lists of characters;
* the content script's page scanner (scanPageForVocab, removeHighlights)
  over a flat model of one parent element's child nodes (text nodes and
  highlight mark elements).

JavaScript strings are modelled as List Char (String where convenient);
String.prototype.toLowerCase is modelled by the ASCII case mapping
Char.toLower, which agrees with JavaScript on the ASCII range the
extension's word validation admits.
-/

/-- ASCII lower-casing of a string, modelling s.toLowerCase() on the
ASCII range. -/
def lowerS (s : String) : String := String.mk (s.data.map Char.toLower)

/-- ASCII lower-casing of a character list, modelling s.toLowerCase(). -/
def lowerL (s : List Char) : List Char := s.map Char.toLower

/-- One persisted vocabulary record, as stored under the vocabList key
(see the data model in background.js saveVocabEntry). -/
structure VocabEntry where
  word : String
  translation : String
  context : String
  sourceUrl : String
  addedAt : String
deriving DecidableEq

/-- The argument of saveVocabEntry: word, translation and the two
optional fields (context and sourceUrl default to the empty string via
the JavaScript expressions entry.context || "" and
entry.sourceUrl || ""). -/
structure EntryInput where
  word : String
  translation : String
  context : Option String
  sourceUrl : Option String
deriving DecidableEq

/-- JavaScript Array.prototype.findIndex: index of the first element
satisfying p, and -1 when none does. -/
def findIndex {α : Type} (p : α → Bool) : List α → Int
  | [] => -1
  | a :: rest =>
    if p a then 0
    else
      let r := findIndex p rest
      if r < 0 then -1 else r + 1

/-- The vocab entry object literal built inside saveVocabEntry before
the addedAt adjustment. -/
def mkVocabEntry (inp : EntryInput) (now : String) : VocabEntry :=
  { word := inp.word
    translation := inp.translation
    context := inp.context.getD ""
    sourceUrl := inp.sourceUrl.getD ""
    addedAt := now }

/-- background.js saveVocabEntry, the store upsert: find the first entry
whose word matches case-insensitively; if found, replace it wholesale
but keep its original addedAt and report updated = true; otherwise push
a fresh entry stamped with the current time and report updated = false.
The current time (new Date().toISOString()) is passed in as now. -/
def saveVocabEntry (inp : EntryInput) (now : String) (vocabList : List VocabEntry) :
    List VocabEntry × Bool :=
  let lowerWord := lowerS inp.word
  let vocabEntry := mkVocabEntry inp now
  let existingIndex := findIndex (fun e => lowerS e.word == lowerWord) vocabList
  if 0 ≤ existingIndex then
    let i := existingIndex.toNat
    (vocabList.set i { vocabEntry with addedAt := (vocabList.getD i vocabEntry).addedAt }, true)
  else
    (vocabList ++ [vocabEntry], false)

/-- background.js deleteVocabEntry: drop every entry whose word matches
the given word case-insensitively. -/
def deleteVocabEntry (word : String) (vocabList : List VocabEntry) : List VocabEntry :=
  vocabList.filter (fun e => !(lowerS e.word == lowerS word))

/-- Mutation of the first element satisfying p, as performed by
Array.prototype.find followed by an in-place field assignment; the flag
reports whether an element was found. -/
def updateFirst {α : Type} (p : α → Bool) (f : α → α) : List α → List α × Bool
  | [] => ([], false)
  | a :: rest =>
    if p a then (f a :: rest, true)
    else
      let r := updateFirst p f rest
      (a :: r.1, r.2)

/-- background.js updateVocabEntry: find the first case-insensitive
match and replace its translation field only; success reports whether a
match existed. -/
def updateVocabEntry (word translation : String) (vocabList : List VocabEntry) :
    List VocabEntry × Bool :=
  updateFirst (fun e => lowerS e.word == lowerS word)
    (fun e => { e with translation := translation }) vocabList

theorem saveVocabEntry_nil (inp : EntryInput) (now : String) :
    saveVocabEntry inp now [] = ([mkVocabEntry inp now], false) := rfl

theorem saveVocabEntry_cons (inp : EntryInput) (now : String) (e : VocabEntry)
    (rest : List VocabEntry) :
    saveVocabEntry inp now (e :: rest) =
      if lowerS e.word = lowerS inp.word then
        ({ mkVocabEntry inp now with addedAt := e.addedAt } :: rest, true)
      else
        (e :: (saveVocabEntry inp now rest).1, (saveVocabEntry inp now rest).2) := by
  by_cases h : lowerS e.word = lowerS inp.word
  · simp only [saveVocabEntry, findIndex, h, beq_self_eq_true, if_pos, if_true]
    simp [Int.toNat_zero]
  · simp only [saveVocabEntry, findIndex, if_neg h, beq_iff_eq, if_neg h]
    set r := findIndex (fun x => lowerS x.word == lowerS inp.word) rest with hr
    by_cases hneg : r < 0
    · simp only [if_pos hneg]
      have : ¬(0 ≤ (-1 : Int)) := by omega
      have hnr : ¬(0 ≤ r) := by omega
      simp [this, hnr, h]
    · simp only [if_neg hneg]
      have h1 : 0 ≤ r + 1 := by omega
      have h0 : 0 ≤ r := by omega
      have ht : (r + 1).toNat = r.toNat + 1 := by omega
      simp [h1, h0, ht, h, List.getD_cons_succ]

theorem saveVocabEntry_eq_append (inp : EntryInput) (now : String) (l : List VocabEntry)
    (h : ∀ e ∈ l, lowerS e.word ≠ lowerS inp.word) :
    saveVocabEntry inp now l = (l ++ [mkVocabEntry inp now], false) := by
  induction l with
  | nil => rfl
  | cons e rest ih =>
    rw [saveVocabEntry_cons, if_neg (h e (List.mem_cons_self e rest))]
    rw [ih (fun x hx => h x (List.mem_cons_of_mem e hx))]
    rfl

theorem saveVocabEntry_eq_set (inp : EntryInput) (now : String) (l : List VocabEntry)
    (i : Nat) (d : VocabEntry) (hi : i < l.length)
    (hfirst : ∀ j, j < i → lowerS ((l.getD j d).word) ≠ lowerS inp.word)
    (hmatch : lowerS ((l.getD i d).word) = lowerS inp.word) :
    saveVocabEntry inp now l =
      (l.set i { mkVocabEntry inp now with addedAt := (l.getD i d).addedAt }, true) := by
  induction l generalizing i with
  | nil => simp at hi
  | cons e rest ih =>
    cases i with
    | zero =>
      rw [List.getD_cons_zero] at hmatch
      rw [saveVocabEntry_cons, if_pos hmatch]
      simp [List.getD_cons_zero]
    | succ i' =>
      have hne : lowerS e.word ≠ lowerS inp.word := by
        have := hfirst 0 (Nat.succ_pos i')
        rwa [List.getD_cons_zero] at this
      rw [saveVocabEntry_cons, if_neg hne]
      rw [List.getD_cons_succ] at hmatch
      have hfirst' : ∀ j, j < i' → lowerS ((rest.getD j d).word) ≠ lowerS inp.word := by
        intro j hj
        have := hfirst (j + 1) (Nat.succ_lt_succ hj)
        rwa [List.getD_cons_succ] at this
      have hi' : i' < rest.length := by simpa using hi
      rw [ih i' hi' hfirst' hmatch]
      simp [List.set_cons_succ]

theorem getD_set_self {l : List VocabEntry} {i : Nat} {a d : VocabEntry}
    (h : i < l.length) : (l.set i a).getD i d = a := by
  simp [List.getD, List.getElem?_set_self, h]

theorem mem_saveVocabEntry {inp : EntryInput} {now : String} {l : List VocabEntry}
    {b : VocabEntry} (hb : b ∈ (saveVocabEntry inp now l).1) :
    lowerS b.word = lowerS inp.word ∨ b ∈ l := by
  induction l with
  | nil =>
    rw [saveVocabEntry_nil] at hb
    simp at hb
    subst hb
    left
    rfl
  | cons e rest ih =>
    rw [saveVocabEntry_cons] at hb
    by_cases h : lowerS e.word = lowerS inp.word
    · rw [if_pos h] at hb
      rcases List.mem_cons.mp hb with h1 | h1
      · subst h1
        left
        rfl
      · right
        exact List.mem_cons_of_mem e h1
    · rw [if_neg h] at hb
      rcases List.mem_cons.mp hb with h1 | h1
      · right
        rw [h1]
        exact List.mem_cons_self e rest
      · rcases ih h1 with h2 | h2
        · left
          exact h2
        · right
          exact List.mem_cons_of_mem e h2

/-- The store invariant: at most one entry per case-insensitive word
value, stated as pairwise distinctness of the lower-cased words. -/
def UniqueWords (l : List VocabEntry) : Prop :=
  l.Pairwise (fun a b => lowerS a.word ≠ lowerS b.word)

theorem uniqueWords_save {inp : EntryInput} {now : String} {l : List VocabEntry}
    (h : UniqueWords l) : UniqueWords (saveVocabEntry inp now l).1 := by
  induction l with
  | nil =>
    rw [saveVocabEntry_nil]
    simp [UniqueWords]
  | cons e rest ih =>
    rcases List.pairwise_cons.mp h with ⟨hhead, htail⟩
    rw [saveVocabEntry_cons]
    by_cases hm : lowerS e.word = lowerS inp.word
    · rw [if_pos hm]
      refine List.pairwise_cons.mpr ⟨?_, htail⟩
      intro b hb
      have : lowerS inp.word ≠ lowerS b.word := hm ▸ hhead b hb
      simpa [mkVocabEntry] using this
    · rw [if_neg hm]
      refine List.pairwise_cons.mpr ⟨?_, ih htail⟩
      intro b hb
      rcases mem_saveVocabEntry hb with h1 | h1
      · rw [h1]
        exact hm
      · exact hhead b h1

theorem map_word_updateVocabEntry (word translation : String) (l : List VocabEntry) :
    ((updateVocabEntry word translation l).1).map (fun e => e.word) =
      l.map (fun e => e.word) := by
  induction l with
  | nil => rfl
  | cons e rest ih =>
    simp only [updateVocabEntry, updateFirst] at *
    by_cases h : (lowerS e.word == lowerS word) = true
    · simp [h]
    · simp only [h]
      simp only [Bool.false_eq_true, if_false, List.map_cons]
      rw [ih]

theorem map_context_updateVocabEntry (word translation : String) (l : List VocabEntry) :
    ((updateVocabEntry word translation l).1).map (fun e => e.context) =
      l.map (fun e => e.context) := by
  induction l with
  | nil => rfl
  | cons e rest ih =>
    simp only [updateVocabEntry, updateFirst] at *
    by_cases h : (lowerS e.word == lowerS word) = true
    · simp [h]
    · simp only [h]
      simp only [Bool.false_eq_true, if_false, List.map_cons]
      rw [ih]

theorem uniqueWords_of_map_word_eq {l l' : List VocabEntry}
    (h : l'.map (fun e => e.word) = l.map (fun e => e.word))
    (hu : UniqueWords l) : UniqueWords l' := by
  have h1 : (l.map (fun e => e.word)).Pairwise (fun a b => lowerS a ≠ lowerS b) := by
    rw [List.pairwise_map]
    exact hu
  rw [← h, List.pairwise_map] at h1
  exact h1

theorem uniqueWords_delete {word : String} {l : List VocabEntry}
    (h : UniqueWords l) : UniqueWords (deleteVocabEntry word l) :=
  List.Pairwise.filter _ h

/-- A store mutation submitted to the background script: the three
operations routed through serializedWrite. -/
inductive StoreOp where
  | upsert (inp : EntryInput) (now : String)
  | remove (word : String)
  | updateTranslation (word translation : String)
deriving DecidableEq

/-- The pure effect of one store mutation on the persisted vocab list:
the body of the corresponding background.js operation between its
storage read and its storage write. -/
def applyStoreOp (l : List VocabEntry) : StoreOp → List VocabEntry
  | StoreOp.upsert inp now => (saveVocabEntry inp now l).1
  | StoreOp.remove w => deleteVocabEntry w l
  | StoreOp.updateTranslation w t => (updateVocabEntry w t l).1

/-- Number of stored entries matching a word case-insensitively. -/
def countWord (l : List VocabEntry) (w : String) : Nat :=
  l.countP (fun e => lowerS e.word == lowerS w)

theorem countWord_le_one {l : List VocabEntry} (h : UniqueWords l) (w : String) :
    countWord l w ≤ 1 := by
  induction l with
  | nil => simp [countWord]
  | cons e rest ih =>
    rcases List.pairwise_cons.mp h with ⟨hhead, htail⟩
    by_cases hm : lowerS e.word = lowerS w
    · have hz : countWord rest w = 0 := by
        rw [countWord, List.countP_eq_zero]
        intro b hb
        simp only [beq_iff_eq]
        intro hbw
        exact hhead b hb (hm.trans hbw.symm)
      rw [countWord] at hz
      rw [countWord, List.countP_cons]
      simp only [beq_iff_eq, if_pos hm]
      omega
    · have := ih htail
      simp only [countWord, List.countP_cons, beq_iff_eq, if_neg hm, Nat.add_zero]
      exact this

theorem exists_class_saveVocabEntry (inp : EntryInput) (now : String) (l : List VocabEntry) :
    ∃ b ∈ (saveVocabEntry inp now l).1, lowerS b.word = lowerS inp.word := by
  induction l with
  | nil =>
    rw [saveVocabEntry_nil]
    exact ⟨mkVocabEntry inp now, by simp, rfl⟩
  | cons e rest ih =>
    rw [saveVocabEntry_cons]
    by_cases hm : lowerS e.word = lowerS inp.word
    · rw [if_pos hm]
      exact ⟨_, List.mem_cons_self _ _, rfl⟩
    · rw [if_neg hm]
      rcases ih with ⟨b, hb, hbeq⟩
      exact ⟨b, List.mem_cons_of_mem e hb, hbeq⟩

theorem class_preserved_saveVocabEntry {c : String} (inp : EntryInput) (now : String)
    {l : List VocabEntry} (h : ∃ b ∈ l, lowerS b.word = lowerS c) :
    ∃ b ∈ (saveVocabEntry inp now l).1, lowerS b.word = lowerS c := by
  induction l with
  | nil => simp at h
  | cons e rest ih =>
    rw [saveVocabEntry_cons]
    rcases h with ⟨b, hb, hbeq⟩
    by_cases hm : lowerS e.word = lowerS inp.word
    · rw [if_pos hm]
      rcases List.mem_cons.mp hb with h1 | h1
      · subst h1
        refine ⟨_, List.mem_cons_self _ _, ?_⟩
        simp only [mkVocabEntry]
        rw [← hm]
        exact hbeq
      · exact ⟨b, List.mem_cons_of_mem _ h1, hbeq⟩
    · rw [if_neg hm]
      rcases List.mem_cons.mp hb with h1 | h1
      · subst h1
        exact ⟨b, List.mem_cons_self _ _, hbeq⟩
      · rcases ih ⟨b, h1, hbeq⟩ with ⟨b', hb', hbeq'⟩
        exact ⟨b', List.mem_cons_of_mem _ hb', hbeq'⟩

/-- Folding a sequence of upsert calls over a store. -/
def foldUpserts (calls : List (EntryInput × String)) (l : List VocabEntry) :
    List VocabEntry :=
  calls.foldl (fun s c => (saveVocabEntry c.1 c.2 s).1) l

theorem uniqueWords_foldUpserts (calls : List (EntryInput × String))
    {l : List VocabEntry} (h : UniqueWords l) : UniqueWords (foldUpserts calls l) := by
  induction calls generalizing l with
  | nil => exact h
  | cons c cs ih => exact ih (uniqueWords_save h)

theorem class_preserved_foldUpserts {c : String} (calls : List (EntryInput × String))
    {l : List VocabEntry} (h : ∃ b ∈ l, lowerS b.word = lowerS c) :
    ∃ b ∈ foldUpserts calls l, lowerS b.word = lowerS c := by
  induction calls generalizing l with
  | nil => exact h
  | cons c' cs ih => exact ih (class_preserved_saveVocabEntry c'.1 c'.2 h)

theorem countWord_eq_one_of_present {l : List VocabEntry} (hu : UniqueWords l)
    {w : String} (h : ∃ b ∈ l, lowerS b.word = lowerS w) : countWord l w = 1 := by
  have h1 : 0 < countWord l w := by
    rw [countWord, List.countP_pos_iff]
    rcases h with ⟨b, hb, hbeq⟩
    exact ⟨b, hb, by simpa using hbeq⟩
  have h2 := countWord_le_one hu w
  omega

theorem countWord_foldUpserts_eq_one (calls : List (EntryInput × String))
    {l : List VocabEntry} (hu : UniqueWords l) :
    ∀ c ∈ calls, countWord (foldUpserts calls l) c.1.word = 1 := by
  induction calls generalizing l with
  | nil => simp
  | cons c cs ih =>
    intro c' hc'
    rcases List.mem_cons.mp hc' with h1 | h1
    · subst h1
      apply countWord_eq_one_of_present
        (uniqueWords_foldUpserts cs (uniqueWords_save hu))
      exact class_preserved_foldUpserts cs
        (exists_class_saveVocabEntry c'.1 c'.2 l)
    · exact ih (uniqueWords_save hu) c' h1

/-- C2: saveVocabEntry on a store with a case-insensitive match for the
given word replaces that (first matching) entry's translation, context
and sourceUrl wholesale while preserving its addedAt and returns
updated = true; on a store with no match it appends a fresh entry
stamped with the current time and returns updated = false. -/
theorem claim_upsert_functional_spec (inp : EntryInput) (now : String)
    (l : List VocabEntry) :
    ((∀ e ∈ l, lowerS e.word ≠ lowerS inp.word) →
      saveVocabEntry inp now l = (l ++ [mkVocabEntry inp now], false)) ∧
    (∀ i d, i < l.length →
      (∀ j, j < i → lowerS ((l.getD j d).word) ≠ lowerS inp.word) →
      lowerS ((l.getD i d).word) = lowerS inp.word →
      saveVocabEntry inp now l =
        (l.set i { mkVocabEntry inp now with addedAt := (l.getD i d).addedAt }, true)) :=
  ⟨saveVocabEntry_eq_append inp now l,
   fun i d hi hfirst hmatch => saveVocabEntry_eq_set inp now l i d hi hfirst hmatch⟩

theorem claim_upsert_functional_spec_witness :
    (lowerS (VocabEntry.word ⟨"cat", "old", "c", "u", "t1"⟩) =
      lowerS (EntryInput.word ⟨"CAT", "new", some "ctx", none⟩)) ∧
    saveVocabEntry ⟨"CAT", "new", some "ctx", none⟩ "t2" [⟨"cat", "old", "c", "u", "t1"⟩] =
      ([⟨"CAT", "new", "ctx", "", "t1"⟩], true) := by
  refine ⟨by decide, ?_⟩
  have h := (claim_upsert_functional_spec ⟨"CAT", "new", some "ctx", none⟩ "t2"
      [⟨"cat", "old", "c", "u", "t1"⟩]).2 0 ⟨"", "", "", "", ""⟩
      (by decide) (fun j hj => absurd hj (by omega)) (by decide)
  rw [h]
  rfl

/-- C10: when an upsert matches an existing entry case-insensitively
but with different letter-casing, the stored word field is replaced by
the new call's surface form even though addedAt is preserved. -/
theorem claim_upsert_replaces_surface_form (inp : EntryInput) (now : String)
    (l : List VocabEntry) (i : Nat) (d : VocabEntry) (hi : i < l.length)
    (hfirst : ∀ j, j < i → lowerS ((l.getD j d).word) ≠ lowerS inp.word)
    (hmatch : lowerS ((l.getD i d).word) = lowerS inp.word) :
    (((saveVocabEntry inp now l).1).getD i d).word = inp.word ∧
    (((saveVocabEntry inp now l).1).getD i d).addedAt = (l.getD i d).addedAt := by
  have h := saveVocabEntry_eq_set inp now l i d hi hfirst hmatch
  rw [h]
  constructor
  · rw [getD_set_self hi]
    rfl
  · rw [getD_set_self hi]

theorem claim_upsert_replaces_surface_form_witness :
    (lowerS (VocabEntry.word ⟨"Ephemeral", "x", "c", "u", "t1"⟩) =
      lowerS (EntryInput.word ⟨"EPHEMERAL", "y", none, none⟩)) ∧
    (((saveVocabEntry ⟨"EPHEMERAL", "y", none, none⟩ "t2"
        [⟨"Ephemeral", "x", "c", "u", "t1"⟩]).1).getD 0 ⟨"", "", "", "", ""⟩).word =
      "EPHEMERAL" ∧
    (((saveVocabEntry ⟨"EPHEMERAL", "y", none, none⟩ "t2"
        [⟨"Ephemeral", "x", "c", "u", "t1"⟩]).1).getD 0 ⟨"", "", "", "", ""⟩).addedAt =
      "t1" := by
  refine ⟨by decide, ?_, ?_⟩
  · exact (claim_upsert_replaces_surface_form ⟨"EPHEMERAL", "y", none, none⟩ "t2"
      [⟨"Ephemeral", "x", "c", "u", "t1"⟩] 0 ⟨"", "", "", "", ""⟩ (by decide)
      (fun j hj => absurd hj (by omega)) (by decide)).1
  · exact (claim_upsert_replaces_surface_form ⟨"EPHEMERAL", "y", none, none⟩ "t2"
      [⟨"Ephemeral", "x", "c", "u", "t1"⟩] 0 ⟨"", "", "", "", ""⟩ (by decide)
      (fun j hj => absurd hj (by omega)) (by decide)).2

/-- C3: the three store operations each preserve the at-most-one-entry-
per-case-insensitive-word invariant, and a sequence of upsert calls over
a store satisfying the invariant leaves exactly one entry per distinct
case-insensitive word used in the calls, whatever the letter-casing. -/
theorem claim_store_uniqueness_invariant :
    (∀ (l : List VocabEntry) (op : StoreOp),
      UniqueWords l → UniqueWords (applyStoreOp l op)) ∧
    (∀ (calls : List (EntryInput × String)) (l : List VocabEntry), UniqueWords l →
      UniqueWords (foldUpserts calls l) ∧
      ∀ c ∈ calls, countWord (foldUpserts calls l) c.1.word = 1) := by
  constructor
  · intro l op hu
    cases op with
    | upsert inp now => exact uniqueWords_save hu
    | remove w => exact uniqueWords_delete hu
    | updateTranslation w t =>
      exact uniqueWords_of_map_word_eq (map_word_updateVocabEntry w t l) hu
  · intro calls l hu
    exact ⟨uniqueWords_foldUpserts calls hu, countWord_foldUpserts_eq_one calls hu⟩

theorem claim_store_uniqueness_invariant_witness :
    UniqueWords [] ∧
    UniqueWords (foldUpserts [(⟨"Cat", "a", none, none⟩, "t1"),
      (⟨"CAT", "b", none, none⟩, "t2")] []) ∧
    countWord (foldUpserts [(⟨"Cat", "a", none, none⟩, "t1"),
      (⟨"CAT", "b", none, none⟩, "t2")] []) "Cat" = 1 := by
  have hu : UniqueWords ([] : List VocabEntry) := List.Pairwise.nil
  have h := (claim_store_uniqueness_invariant).2
    [(⟨"Cat", "a", none, none⟩, "t1"), (⟨"CAT", "b", none, none⟩, "t2")] [] hu
  exact ⟨hu, h.1, h.2 (⟨"Cat", "a", none, none⟩, "t1") (by simp)⟩

/-- C4 counterexample: the context field is not immutable; a later
upsert of the same case-insensitive word replaces the stored context
with the new call's context. -/
theorem claim_context_immutable_counterexample :
    (((saveVocabEntry ⟨"Cat", "x", some "B", some "u2"⟩ "t2"
        [⟨"cat", "y", "A", "u1", "t1"⟩]).1).getD 0 ⟨"", "", "", "", ""⟩).context = "B" ∧
    (([⟨"cat", "y", "A", "u1", "t1"⟩] : List VocabEntry).getD 0
        ⟨"", "", "", "", ""⟩).context = "A" ∧
    ("B" : String) ≠ "A" := by
  refine ⟨?_, rfl, by decide⟩
  rfl

/-- C4 amended: an entry's context is set at addition and is never
changed by remove or updateTranslation; a later upsert of the same
case-insensitive word, however, replaces it with the new call's context
(defaulting to the empty string). -/
theorem claim_context_frame_amended :
    (∀ (word translation : String) (l : List VocabEntry),
      ((updateVocabEntry word translation l).1).map (fun e => e.context) =
        l.map (fun e => e.context)) ∧
    (∀ (word : String) (l : List VocabEntry) (e : VocabEntry),
      e ∈ deleteVocabEntry word l → e ∈ l) ∧
    (∀ (inp : EntryInput) (now : String) (l : List VocabEntry) (i : Nat) (d : VocabEntry),
      i < l.length →
      (∀ j, j < i → lowerS ((l.getD j d).word) ≠ lowerS inp.word) →
      lowerS ((l.getD i d).word) = lowerS inp.word →
      (((saveVocabEntry inp now l).1).getD i d).context = inp.context.getD "") := by
  refine ⟨map_context_updateVocabEntry, ?_, ?_⟩
  · intro word l e he
    exact (List.mem_filter.mp he).1
  · intro inp now l i d hi hfirst hmatch
    rw [saveVocabEntry_eq_set inp now l i d hi hfirst hmatch]
    rw [getD_set_self hi]
    rfl

theorem claim_context_frame_amended_witness :
    ((deleteVocabEntry "dog" [⟨"cat", "y", "A", "u1", "t1"⟩]).getD 0
        ⟨"", "", "", "", ""⟩ ∈ ([⟨"cat", "y", "A", "u1", "t1"⟩] : List VocabEntry)) ∧
    (((saveVocabEntry ⟨"CAT", "x", some "B", none⟩ "t2"
        [⟨"cat", "y", "A", "u1", "t1"⟩]).1).getD 0 ⟨"", "", "", "", ""⟩).context = "B" := by
  constructor
  · exact (claim_context_frame_amended).2.1 "dog" [⟨"cat", "y", "A", "u1", "t1"⟩] _
      (by decide)
  · exact (claim_context_frame_amended).2.2 ⟨"CAT", "x", some "B", none⟩ "t2"
      [⟨"cat", "y", "A", "u1", "t1"⟩] 0 ⟨"", "", "", "", ""⟩ (by decide)
      (fun j hj => absurd hj (by omega)) (by decide)

/-- The execution state of interleaved store mutations: regs i records
the vocab list that mutation i read from chrome.storage.local, once its
read has completed; store is the currently persisted vocabList. -/
structure ExecState where
  regs : Nat → Option (List VocabEntry)
  store : List VocabEntry

/-- One storage event of mutation i: (i, false) is its read of the
vocab list (getVocabList), (i, true) its write of the modified list
(chrome.storage.local.set); a mutation may suspend between the two. -/
def execEvent (ops : Nat → StoreOp) (s : ExecState) : Nat × Bool → ExecState
  | (i, false) => { s with regs := Function.update s.regs i (some s.store) }
  | (i, true) =>
    { s with
      store :=
        match s.regs i with
        | some v => applyStoreOp v (ops i)
        | none => s.store }

/-- Run a schedule of interleaved read and write events. -/
def execTrace (ops : Nat → StoreOp) (sched : List (Nat × Bool)) (s : ExecState) :
    ExecState :=
  sched.foldl (execEvent ops) s

/-- The schedule the promise queue actually produces: each mutation
reads and then writes before the next mutation starts. -/
def canonicalSched (n : Nat) : List (Nat × Bool) :=
  (List.range n).flatMap (fun i => [(i, false), (i, true)])

/-- Applying the n mutations sequentially in submission order. -/
def seqRun (ops : Nat → StoreOp) (n : Nat) (l : List VocabEntry) : List VocabEntry :=
  (List.range n).foldl (fun s i => applyStoreOp s (ops i)) l

/-- The event ordering enforced by writeQueue = writeQueue.then(fn, fn):
every event of an earlier-submitted mutation precedes every event of a
later one, and each mutation reads before it writes. -/
def evBefore (a b : Nat × Bool) : Prop :=
  a.1 < b.1 ∨ (a.1 = b.1 ∧ a.2 = false ∧ b.2 = true)

instance : DecidableRel evBefore := fun a b => by
  unfold evBefore
  infer_instance

theorem evBefore_antisymm : ∀ a b : Nat × Bool, evBefore a b → evBefore b a → a = b := by
  rintro ⟨i, p⟩ ⟨j, q⟩ (h | ⟨h1, h2, h3⟩) (g | ⟨g1, g2, g3⟩)
  · exact absurd g (by omega)
  · exact absurd h (by omega)
  · exact absurd g (by omega)
  · rw [h2] at g3
    cases g3

instance : IsAntisymm (Nat × Bool) evBefore := ⟨evBefore_antisymm⟩

theorem fst_lt_of_mem_canonicalSched {e : Nat × Bool} {n : Nat}
    (h : e ∈ canonicalSched n) : e.1 < n := by
  rcases List.mem_flatMap.mp h with ⟨i, hi, he⟩
  have hilt := List.mem_range.mp hi
  have he2 : e = (i, false) ∨ e = (i, true) := by simpa using he
  rcases he2 with h1 | h1 <;> rw [h1] <;> exact hilt

theorem canonicalSched_succ (n : Nat) :
    canonicalSched (n + 1) = canonicalSched n ++ [(n, false), (n, true)] := by
  rw [canonicalSched, List.range_succ, List.flatMap_append]
  rfl

theorem pairwise_canonicalSched (n : Nat) : (canonicalSched n).Pairwise evBefore := by
  induction n with
  | zero => exact List.Pairwise.nil
  | succ n ih =>
    rw [canonicalSched_succ, List.pairwise_append]
    refine ⟨ih, ?_, ?_⟩
    · refine List.pairwise_cons.mpr ⟨?_, List.pairwise_singleton _ _⟩
      intro b hb
      rcases List.mem_singleton.mp hb with h1
      rw [h1]
      right
      exact ⟨rfl, rfl, rfl⟩
    · intro a ha b hb
      have hlt := fst_lt_of_mem_canonicalSched ha
      have hb2 : b = (n, false) ∨ b = (n, true) := by simpa using hb
      rcases hb2 with h1 | h1 <;> rw [h1] <;> left <;> exact hlt

theorem execTrace_canonicalSched (ops : Nat → StoreOp) (n : Nat) :
    ∀ (r : Nat → Option (List VocabEntry)) (l : List VocabEntry),
      (execTrace ops (canonicalSched n) ⟨r, l⟩).store = seqRun ops n l := by
  induction n with
  | zero => intro r l; rfl
  | succ n ih =>
    intro r l
    rw [canonicalSched_succ, execTrace, List.foldl_append]
    have hseq : seqRun ops (n + 1) l = applyStoreOp (seqRun ops n l) (ops n) := by
      rw [seqRun, List.range_succ, List.foldl_append]
      rfl
    rw [hseq]
    have hstore : (List.foldl (execEvent ops) ⟨r, l⟩ (canonicalSched n)).store =
        seqRun ops n l := ih r l
    set s1 := List.foldl (execEvent ops) (⟨r, l⟩ : ExecState) (canonicalSched n) with hs1
    show (execEvent ops (execEvent ops s1 (n, false)) (n, true)).store = _
    simp only [execEvent, Function.update_same]
    rw [hstore]

/-- C1: for every number of store mutations submitted concurrently,
each suspending at its storage read and write, any interleaving of the
read and write events that respects the ordering imposed by the
serializedWrite promise chain leaves the persisted vocab list equal to
applying the mutations sequentially in submission order; no mutation is
lost to an interleaved read-modify-write. -/
theorem claim_serialized_mutations_sequential (ops : Nat → StoreOp) (n : Nat)
    (sched : List (Nat × Bool)) (r : Nat → Option (List VocabEntry))
    (l : List VocabEntry)
    (hperm : List.Perm sched (canonicalSched n))
    (hser : sched.Pairwise evBefore) :
    (execTrace ops sched ⟨r, l⟩).store = seqRun ops n l := by
  have hsched : sched = canonicalSched n :=
    List.eq_of_perm_of_sorted hperm hser (pairwise_canonicalSched n)
  rw [hsched]
  exact execTrace_canonicalSched ops n r l

/-- Two concrete mutations used to instantiate the serialization claim. -/
def opsPairC1 : Nat → StoreOp := fun i =>
  if i = 0 then StoreOp.upsert ⟨"cat", "a", none, none⟩ "t1"
  else StoreOp.upsert ⟨"CAT", "b", none, none⟩ "t2"

theorem claim_serialized_mutations_sequential_witness :
    List.Perm (canonicalSched 2) (canonicalSched 2) ∧
    (canonicalSched 2).Pairwise evBefore ∧
    (execTrace opsPairC1 (canonicalSched 2) ⟨fun _ => none, []⟩).store =
      seqRun opsPairC1 2 [] :=
  ⟨List.Perm.refl _, by decide,
    claim_serialized_mutations_sequential opsPairC1 2 (canonicalSched 2)
      (fun _ => none) [] (List.Perm.refl _) (by decide)⟩

/-- A queued storage operation: acts on the persisted vocab list and
either succeeds with the new list or fails (its promise rejects); a
failed operation leaves storage unchanged. -/
def QueueTask : Type := List VocabEntry → Except String (List VocabEntry)

/-- The settled state of the write queue promise chain: the persisted
store plus whether the most recently queued operation rejected. -/
structure QueueState where
  store : List VocabEntry
  rejected : Bool

/-- promise.then(onFulfilled, onRejected): after the previous promise
settles, the handler selected by its outcome runs. -/
def promiseThen (q : QueueState) (onFulfilled onRejected : QueueTask) : QueueState :=
  let fn := if q.rejected then onRejected else onFulfilled
  match fn q.store with
  | Except.ok s => ⟨s, false⟩
  | Except.error _ => ⟨q.store, true⟩

/-- background.js serializedWrite: writeQueue = writeQueue.then(fn, fn);
the same operation is installed as both the fulfillment and the
rejection handler of the previous queue promise. -/
def serializedWrite (fn : QueueTask) (q : QueueState) : QueueState :=
  promiseThen q fn fn

/-- Run a list of operations enqueued through serializedWrite, recording
each operation's settled outcome (false = fulfilled, true = rejected). -/
def runQueue : List QueueTask → QueueState → QueueState × List Bool
  | [], q => (q, [])
  | fn :: rest, q =>
    let q1 := serializedWrite fn q
    let r := runQueue rest q1
    (r.1, q1.rejected :: r.2)

theorem serializedWrite_flag_independent (fn : QueueTask) (s : List VocabEntry)
    (b b' : Bool) : serializedWrite fn ⟨s, b⟩ = serializedWrite fn ⟨s, b'⟩ := by
  simp [serializedWrite, promiseThen]

theorem runQueue_flag_independent (ts : List QueueTask) :
    ∀ (s : List VocabEntry) (b b' : Bool),
      (runQueue ts ⟨s, b⟩).1.store = (runQueue ts ⟨s, b'⟩).1.store ∧
      (runQueue ts ⟨s, b⟩).2 = (runQueue ts ⟨s, b'⟩).2 := by
  induction ts with
  | nil => intro s b b'; exact ⟨rfl, rfl⟩
  | cons fn rest ih =>
    intro s b b'
    simp only [runQueue]
    rw [serializedWrite_flag_independent fn s b b']
    exact ⟨rfl, rfl⟩

theorem runQueue_length (ts : List QueueTask) (q : QueueState) :
    (runQueue ts q).2.length = ts.length := by
  induction ts generalizing q with
  | nil => rfl
  | cons fn rest ih =>
    show ((runQueue rest (serializedWrite fn q)).2.length + 1) = rest.length + 1
    rw [ih]

theorem runQueue_append (l1 l2 : List QueueTask) (q : QueueState) :
    runQueue (l1 ++ l2) q =
      ((runQueue l2 (runQueue l1 q).1).1,
        (runQueue l1 q).2 ++ (runQueue l2 (runQueue l1 q).1).2) := by
  induction l1 generalizing q with
  | nil => rfl
  | cons fn rest ih =>
    show (let q1 := serializedWrite fn q
          let r := runQueue (rest ++ l2) q1
          ((r.1, q1.rejected :: r.2) : QueueState × List Bool)) = _
    simp only [ih (serializedWrite fn q)]
    rfl

theorem serializedWrite_failing (bad : QueueTask) (q : QueueState)
    (hbad : ∀ s, ∃ msg, bad s = Except.error msg) :
    serializedWrite bad q = ⟨q.store, true⟩ := by
  rcases hbad q.store with ⟨msg, hmsg⟩
  simp [serializedWrite, promiseThen, hmsg]

/-- C9: a rejected operation neither blocks nor poisons the write
queue: every enqueued operation settles (one outcome per enqueued task),
the store after an always-failing task is whatever the operations before
it produced, the tasks enqueued after it still run on that store, and
the subsequent execution does not depend on the rejected flag at all. -/
theorem claim_queue_failure_not_poisoning (pre post : List QueueTask)
    (bad : QueueTask) (q : QueueState)
    (hbad : ∀ s, ∃ msg, bad s = Except.error msg) :
    (runQueue (pre ++ bad :: post) q).2.length =
      pre.length + 1 + post.length ∧
    (runQueue (pre ++ bad :: post) q).1.store =
      (runQueue post ⟨(runQueue pre q).1.store, true⟩).1.store ∧
    (∀ (s : List VocabEntry) (b b' : Bool),
      (runQueue post ⟨s, b⟩).1.store = (runQueue post ⟨s, b'⟩).1.store ∧
      (runQueue post ⟨s, b⟩).2 = (runQueue post ⟨s, b'⟩).2) := by
  refine ⟨?_, ?_, runQueue_flag_independent post⟩
  · rw [runQueue_length, List.length_append, List.length_cons]
    omega
  · rw [runQueue_append]
    show (runQueue (bad :: post) (runQueue pre q).1).1.store = _
    show (runQueue post (serializedWrite bad (runQueue pre q).1)).1.store = _
    rw [serializedWrite_failing bad _ hbad]

/-- Concrete queue tasks used to instantiate the failure claim. -/
def okTaskA : QueueTask := fun s =>
  Except.ok ((saveVocabEntry ⟨"cat", "a", none, none⟩ "t1" s).1)

/-- Concrete queue task used to instantiate the failure claim. -/
def okTaskB : QueueTask := fun s =>
  Except.ok ((saveVocabEntry ⟨"dog", "b", none, none⟩ "t2" s).1)

/-- Concrete always-failing queue task. -/
def badTaskC9 : QueueTask := fun _ => Except.error "boom"

theorem claim_queue_failure_not_poisoning_witness :
    (∀ s, ∃ msg, badTaskC9 s = Except.error msg) ∧
    (runQueue ([okTaskA] ++ badTaskC9 :: [okTaskB]) ⟨[], false⟩).2.length = 3 ∧
    (runQueue ([okTaskA] ++ badTaskC9 :: [okTaskB]) ⟨[], false⟩).1.store =
      (runQueue [okTaskB] ⟨(runQueue [okTaskA] ⟨[], false⟩).1.store, true⟩).1.store := by
  have hb : ∀ s, ∃ msg, badTaskC9 s = Except.error msg := fun _ => ⟨"boom", rfl⟩
  refine ⟨hb, ?_, (claim_queue_failure_not_poisoning [okTaskA] [okTaskB] badTaskC9
    ⟨[], false⟩ hb).2.1⟩
  exact (claim_queue_failure_not_poisoning [okTaskA] [okTaskB] badTaskC9
    ⟨[], false⟩ hb).1

/-- JavaScript String.prototype.trim on a character list. -/
def trimL (s : List Char) : List Char :=
  ((s.dropWhile Char.isWhitespace).reverse.dropWhile Char.isWhitespace).reverse

/-- JavaScript String.prototype.indexOf: the first index at which pat
occurs in the list, none when it does not occur. -/
def firstIndexOf (pat : List Char) : List Char → Option Nat
  | [] => if pat.isPrefixOf [] then some 0 else none
  | c :: rest =>
    if pat.isPrefixOf (c :: rest) then some 0
    else (firstIndexOf pat rest).map (fun k => k + 1)

/-- content.js MAX_PARAGRAPH_LENGTH. -/
def MAX_PARAGRAPH_LENGTH : Nat := 500

/-- content.js getEnclosingParagraphText with the DOM ancestor walk
abstracted away: text is the textContent of the nearest block-level
ancestor (or document.body) and word the selected word. Short text is
returned trimmed; otherwise a window of MAX_PARAGRAPH_LENGTH characters
centered on the first case-insensitive occurrence of the word (from the
start when the word is not found) is sliced out, clamped to the text
bounds as in the source's two adjustment branches, and trimmed. -/
def getEnclosingParagraphText (text word : List Char) : List Char :=
  if text.length ≤ MAX_PARAGRAPH_LENGTH then trimL text
  else
    match firstIndexOf (lowerL word) (lowerL text) with
    | none => trimL (text.take MAX_PARAGRAPH_LENGTH)
    | some wordIndex =>
      let half : Int := (MAX_PARAGRAPH_LENGTH : Int) / 2
      let start0 : Int := (wordIndex : Int) - half
      let end0 : Int := (wordIndex : Int) + half
      let start1 : Int := if start0 < 0 then 0 else start0
      let end1 : Int :=
        if start0 < 0 then min (text.length : Int) (end0 - start0) else end0
      let start2 : Int :=
        if end1 > (text.length : Int) then
          max 0 (start1 - (end1 - (text.length : Int)))
        else start1
      let end2 : Int :=
        if end1 > (text.length : Int) then (text.length : Int) else end1
      trimL ((text.take end2.toNat).drop start2.toNat)

/-- Counterexample paragraph for the context-window claim: one word
character followed by 500 spaces. -/
def paddedParagraph : List Char := 'w' :: List.replicate 500 ' '

set_option maxRecDepth 20000 in
/-- C5 counterexample: the returned context is the trimmed window, so it
can be far shorter than the maximum length even when the paragraph
exceeds the cap and the word is located: here a 501-character paragraph
yields a 1-character context, not a 500-character one. -/
theorem claim_context_window_counterexample :
    MAX_PARAGRAPH_LENGTH < paddedParagraph.length ∧
    firstIndexOf (lowerL ['w']) (lowerL paddedParagraph) = some 0 ∧
    getEnclosingParagraphText paddedParagraph ['w'] = ['w'] ∧
    (getEnclosingParagraphText paddedParagraph ['w']).length ≠ MAX_PARAGRAPH_LENGTH := by
  refine ⟨by decide, by decide, by decide, by decide⟩

/-- C5 amended: for a paragraph longer than the cap whose word can be
located, the extracted slice is a window of exactly MAX_PARAGRAPH_LENGTH
characters, centered on the word position and clamped to the paragraph
bounds, and the returned context is that window with leading and
trailing whitespace trimmed (hence possibly shorter than the cap); when
the word cannot be located the window is taken from the start of the
text, again trimmed. -/
theorem claim_context_window_amended (text word : List Char)
    (hlen : MAX_PARAGRAPH_LENGTH < text.length) :
    (∀ wi, firstIndexOf (lowerL word) (lowerL text) = some wi →
      getEnclosingParagraphText text word =
        trimL ((text.drop (min (wi - MAX_PARAGRAPH_LENGTH / 2)
          (text.length - MAX_PARAGRAPH_LENGTH))).take MAX_PARAGRAPH_LENGTH) ∧
      ((text.drop (min (wi - MAX_PARAGRAPH_LENGTH / 2)
          (text.length - MAX_PARAGRAPH_LENGTH))).take MAX_PARAGRAPH_LENGTH).length =
        MAX_PARAGRAPH_LENGTH ∧
      min (wi - MAX_PARAGRAPH_LENGTH / 2) (text.length - MAX_PARAGRAPH_LENGTH) +
        MAX_PARAGRAPH_LENGTH ≤ text.length) ∧
    (firstIndexOf (lowerL word) (lowerL text) = none →
      getEnclosingParagraphText text word = trimL (text.take MAX_PARAGRAPH_LENGTH)) := by
  have hnle : ¬(text.length ≤ MAX_PARAGRAPH_LENGTH) := Nat.not_le.mpr hlen
  have h500 : MAX_PARAGRAPH_LENGTH = 500 := rfl
  constructor
  · intro wi hwi
    have hSle : min (wi - MAX_PARAGRAPH_LENGTH / 2)
        (text.length - MAX_PARAGRAPH_LENGTH) + MAX_PARAGRAPH_LENGTH ≤ text.length := by
      rw [h500] at hlen ⊢
      omega
    refine ⟨?_, ?_, hSle⟩
    · simp only [getEnclosingParagraphText, if_neg hnle, hwi]
      have key : ∀ s2 e2 : Int,
          s2.toNat = min (wi - MAX_PARAGRAPH_LENGTH / 2)
            (text.length - MAX_PARAGRAPH_LENGTH) →
          e2.toNat = min (wi - MAX_PARAGRAPH_LENGTH / 2)
            (text.length - MAX_PARAGRAPH_LENGTH) + MAX_PARAGRAPH_LENGTH →
          trimL ((text.take e2.toNat).drop s2.toNat) =
            trimL ((text.drop (min (wi - MAX_PARAGRAPH_LENGTH / 2)
              (text.length - MAX_PARAGRAPH_LENGTH))).take MAX_PARAGRAPH_LENGTH) := by
        intro s2 e2 h1 h2
        rw [List.drop_take, h1, h2, Nat.add_sub_cancel_left]
      apply key
      · rw [h500] at hlen ⊢
        split_ifs <;> omega
      · rw [h500] at hlen ⊢
        split_ifs <;> omega
    · rw [List.length_take, List.length_drop]
      rw [h500] at hSle ⊢
      omega
  · intro hnone
    simp only [getEnclosingParagraphText, if_neg hnle, hnone]

set_option maxRecDepth 20000 in
theorem claim_context_window_amended_witness :
    MAX_PARAGRAPH_LENGTH < paddedParagraph.length ∧
    firstIndexOf (lowerL ['w']) (lowerL paddedParagraph) = some 0 ∧
    getEnclosingParagraphText paddedParagraph ['w'] =
      trimL ((paddedParagraph.drop (min (0 - MAX_PARAGRAPH_LENGTH / 2)
        (paddedParagraph.length - MAX_PARAGRAPH_LENGTH))).take MAX_PARAGRAPH_LENGTH) ∧
    ((paddedParagraph.drop (min (0 - MAX_PARAGRAPH_LENGTH / 2)
        (paddedParagraph.length - MAX_PARAGRAPH_LENGTH))).take
      MAX_PARAGRAPH_LENGTH).length = MAX_PARAGRAPH_LENGTH := by
  have hlen : MAX_PARAGRAPH_LENGTH < paddedParagraph.length := by
    rw [show paddedParagraph.length = 501 from by simp [paddedParagraph]]
    decide
  exact ⟨hlen, by decide,
    ((claim_context_window_amended paddedParagraph ['w'] hlen).1 0 (by decide)).1,
    ((claim_context_window_amended paddedParagraph ['w'] hlen).1 0 (by decide)).2.1⟩

/-- JavaScript regex word character class \w = [A-Za-z0-9_], as used by
the \b assertions in the scanner's pattern. -/
def isWordChar (c : Char) : Bool := c.isAlphanum || c == '_'

/-- Whether an optional character (none = edge of the string) counts as
a word character for \b purposes. -/
def optWordChar : Option Char → Bool
  | none => false
  | some c => isWordChar c

/-- A \b word boundary holds between two adjacent positions iff exactly
one of the two neighbouring characters is a word character. -/
def isBoundary (a b : Option Char) : Bool := optWordChar a != optWordChar b

/-- Attempt to match one alternation branch w (special characters were
escaped, so the branch is a literal) at the current position of t: the
branch matches case-insensitively as a prefix of t, with a \b boundary
after the matched surface; returns the matched surface and the rest.
Empty branches are rejected: the extension never stores an empty word
(its selection validation requires at least one character), and a
zero-width match would loop the JavaScript exec scan. -/
def tryWord (t w : List Char) : Option (List Char × List Char) :=
  if w = [] then none
  else
    let m := t.take w.length
    if lowerL m = lowerL w then
      let rest := t.drop w.length
      if isBoundary m.getLast? rest.head? then some (m, rest) else none
    else none

/-- Try the alternation branches in vocabulary order (the order the
combined pattern lists them), as the regex engine does at one position. -/
def tryVocab (vocab : List VocabEntry) (t : List Char) :
    Option (VocabEntry × List Char × List Char) :=
  match vocab with
  | [] => none
  | e :: vs =>
    match tryWord t e.word.data with
    | some (m, r) => some (e, m, r)
    | none => tryVocab vs t

/-- One attempted match of the combined pattern at the current position:
the leading \b is checked between the previous character and the head of
the remaining text, then the alternatives run in order, each with its
own trailing \b. -/
def matchHere (vocab : List VocabEntry) (prev : Option Char) (t : List Char) :
    Option (VocabEntry × List Char × List Char) :=
  if isBoundary prev t.head? then tryVocab vocab t else none

/-- The vocabMap built by scanPageForVocab: lower-cased word to entry,
a later entry overwriting an earlier one with the same key (Map.set). -/
def vocabMapLookup (vocab : List VocabEntry) (k : List Char) : Option VocabEntry :=
  vocab.reverse.find? (fun e => lowerL e.word.data == k)

/-- A flat model of one parent element's child nodes: a plain text node,
or a mark.vh-highlight element wrapping one matched occurrence. A mark
carries its textContent (the matched surface) and its dataset (word key
and translation) when the vocabMap lookup found an entry. -/
inductive Seg where
  | text (s : List Char)
  | mark (matched : List Char) (dataset : Option (List Char × List Char))
deriving DecidableEq

/-- Whether a child node is a mark.vh-highlight element. -/
def Seg.isMark : Seg → Bool
  | Seg.text _ => false
  | Seg.mark _ _ => true

/-- textContent of one child node. -/
def segText : Seg → List Char
  | Seg.text s => s
  | Seg.mark m _ => m

/-- textContent of the parent: the concatenation over its children. -/
def pageText : List Seg → List Char
  | [] => []
  | s :: rest => segText s ++ pageText rest

/-- Prepend one unmatched character, extending a leading text fragment
as the exec loop's slice between matches does. -/
def consText (c : Char) : List Seg → List Seg
  | Seg.text s :: rest => Seg.text (c :: s) :: rest
  | segs => Seg.text [c] :: segs

/-- The regex exec loop over one text node: from the current position
(prev is the character before it), repeatedly match the combined
pattern, emitting mark segments for matches and text segments for the
slices between them, and counting matches. The fuel argument (one unit
per step, each step consuming at least one character) makes the
recursion structural; splitTextNode supplies enough fuel. -/
def execLoop (vocab : List VocabEntry) : Nat → Option Char → List Char → List Seg × Nat
  | _, _, [] => ([], 0)
  | 0, _, c :: rest => ([Seg.text (c :: rest)], 0)
  | fuel + 1, prev, c :: rest =>
    match matchHere vocab prev (c :: rest) with
    | some (_, m, r) =>
      let res := execLoop vocab fuel m.getLast? r
      (Seg.mark m ((vocabMapLookup vocab (lowerL m)).map
        (fun en => (en.word.data, en.translation.data))) :: res.1, res.2 + 1)
    | none =>
      let res := execLoop vocab fuel (some c) rest
      (consText c res.1, res.2)

/-- Split one text node into text and mark segments via the exec loop;
fuel t.length suffices because every step consumes a character. -/
def splitTextNode (vocab : List VocabEntry) (t : List Char) : List Seg × Nat :=
  execLoop vocab t.length none t

/-- Replace a mark element by a text node holding its textContent. -/
def segToText : Seg → Seg
  | Seg.mark m _ => Seg.text m
  | s => s

/-- Node.normalize on the parent: remove empty text nodes and merge
contiguous text nodes. -/
def normalizePage : List Seg → List Seg
  | [] => []
  | Seg.text s :: rest =>
    if s = [] then normalizePage rest
    else
      match normalizePage rest with
      | Seg.text s2 :: r2 => Seg.text (s ++ s2) :: r2
      | r2 => Seg.text s :: r2
  | s :: rest => s :: normalizePage rest

/-- content.js removeHighlights: replace each mark.vh-highlight by a
plain text node and normalize its parent; when no marks exist, nothing
happens and no normalize runs. -/
def removeHighlights (p : List Seg) : List Seg :=
  if p.any Seg.isMark then normalizePage (p.map segToText) else p

/-- Scan of one child node: a text node whose text has no pattern match
stays in place (the continue branch of the node loop); one with matches
is replaced by its segment sequence; non-text children are skipped by
the tree walker's accept filter. -/
def scanSeg (vocab : List VocabEntry) : Seg → List Seg × Nat
  | Seg.text t =>
    let res := splitTextNode vocab t
    if res.2 = 0 then ([Seg.text t], 0) else res
  | s => ([s], 0)

/-- The node loop of scanPageForVocab over the parent's children,
accumulating replaced segments and the total match count. -/
def scanChildren (vocab : List VocabEntry) (p : List Seg) : List Seg × Nat :=
  p.foldr (fun seg acc =>
    let res := scanSeg vocab seg
    (res.1 ++ acc.1, res.2 + acc.2)) ([], 0)

/-- content.js scanPageForVocab on one parent element: remove previous
highlights first, then, unless the vocabulary is empty (the scan
returns after removal), rescan every text child against the combined
pattern, replacing matched nodes and counting all matches. -/
def scanPageForVocab (vocab : List VocabEntry) (p : List Seg) : List Seg × Nat :=
  let p2 := removeHighlights p
  if vocab.isEmpty then (p2, 0)
  else scanChildren vocab p2

/-- No two adjacent text nodes among the children: the normalized state
a freshly parsed DOM parent is in. -/
def noAdjacentTexts : List Seg → Bool
  | Seg.text _ :: Seg.text _ :: _ => false
  | _ :: rest => noAdjacentTexts rest
  | [] => true

theorem tryWord_spec {t w m r : List Char} (h : tryWord t w = some (m, r)) :
    m ≠ [] ∧ m ++ r = t ∧ lowerL m = lowerL w ∧
    isBoundary m.getLast? r.head? = true := by
  by_cases hw : w = []
  · rw [tryWord, if_pos hw] at h
    cases h
  · rw [tryWord, if_neg hw] at h
    by_cases hm : lowerL (t.take w.length) = lowerL w
    · rw [if_pos hm] at h
      by_cases hb : isBoundary (t.take w.length).getLast? (t.drop w.length).head? = true
      · rw [if_pos hb] at h
        simp only [Option.some.injEq, Prod.mk.injEq] at h
        obtain ⟨rfl, rfl⟩ := h
        refine ⟨?_, List.take_append_drop _ _, hm, hb⟩
        intro hc
        have hlen : (t.take w.length).length = w.length := by
          have := congrArg List.length hm
          simpa [lowerL] using this
        rw [hc] at hlen
        exact hw (List.length_eq_zero.mp hlen.symm)
      · rw [if_neg hb] at h
        cases h
    · rw [if_neg hm] at h
      cases h

theorem tryVocab_sound {vocab : List VocabEntry} {t : List Char}
    {e : VocabEntry} {m r : List Char}
    (h : tryVocab vocab t = some (e, m, r)) :
    e ∈ vocab ∧ tryWord t e.word.data = some (m, r) := by
  induction vocab with
  | nil => cases h
  | cons e0 vs ih =>
    rw [tryVocab] at h
    cases htw : tryWord t e0.word.data with
    | some p =>
      obtain ⟨m0, r0⟩ := p
      rw [htw] at h
      simp only [Option.some.injEq, Prod.mk.injEq] at h
      obtain ⟨rfl, rfl, rfl⟩ := h
      exact ⟨List.mem_cons_self _ _, htw⟩
    | none =>
      rw [htw] at h
      obtain ⟨hmem, htw2⟩ := ih h
      exact ⟨List.mem_cons_of_mem _ hmem, htw2⟩

theorem matchHere_sound {vocab : List VocabEntry} {prev : Option Char}
    {t : List Char} {e : VocabEntry} {m r : List Char}
    (h : matchHere vocab prev t = some (e, m, r)) :
    e ∈ vocab ∧ lowerL m = lowerL e.word.data ∧ m ++ r = t ∧ m ≠ [] ∧
    isBoundary prev t.head? = true ∧ isBoundary m.getLast? r.head? = true := by
  by_cases hb : isBoundary prev t.head? = true
  · rw [matchHere, if_pos hb] at h
    obtain ⟨hmem, htw⟩ := tryVocab_sound h
    obtain ⟨hne, happ, hlow, hb2⟩ := tryWord_spec htw
    exact ⟨hmem, hlow, happ, hne, hb, hb2⟩
  · rw [matchHere, if_neg hb] at h
    cases h

theorem pageText_consText (c : Char) (segs : List Seg) :
    pageText (consText c segs) = c :: pageText segs := by
  cases segs with
  | nil => rfl
  | cons s rest =>
    cases s with
    | text s0 => rfl
    | mark m ds => rfl

theorem pageText_append (a b : List Seg) :
    pageText (a ++ b) = pageText a ++ pageText b := by
  induction a with
  | nil => rfl
  | cons s rest ih =>
    simp only [List.cons_append, pageText, List.append_eq, ih, List.append_assoc]

theorem execLoop_pageText (vocab : List VocabEntry) :
    ∀ (fuel : Nat) (prev : Option Char) (t : List Char),
      pageText (execLoop vocab fuel prev t).1 = t := by
  intro fuel
  induction fuel with
  | zero =>
    intro prev t
    cases t with
    | nil => rfl
    | cons c rest => simp [execLoop, pageText, segText]
  | succ fuel ih =>
    intro prev t
    cases t with
    | nil => rfl
    | cons c rest =>
      simp only [execLoop]
      cases hm : matchHere vocab prev (c :: rest) with
      | none =>
        simp only []
        rw [pageText_consText, ih]
      | some res =>
        obtain ⟨e, m, r⟩ := res
        have hs := matchHere_sound hm
        simp only [pageText, segText]
        rw [ih]
        exact hs.2.2.1

theorem pageText_scanSeg (vocab : List VocabEntry) (s : Seg) :
    pageText (scanSeg vocab s).1 = segText s := by
  cases s with
  | text t =>
    rw [scanSeg]
    by_cases hz : (splitTextNode vocab t).2 = 0
    · simp only [hz, if_true, if_pos]
      simp [pageText, segText]
    · simp only [if_neg hz]
      rw [splitTextNode, execLoop_pageText]
      rfl
  | mark m ds => simp [scanSeg, pageText, segText]

theorem scanChildren_cons (vocab : List VocabEntry) (s : Seg) (rest : List Seg) :
    scanChildren vocab (s :: rest) =
      ((scanSeg vocab s).1 ++ (scanChildren vocab rest).1,
        (scanSeg vocab s).2 + (scanChildren vocab rest).2) := rfl

theorem pageText_scanChildren (vocab : List VocabEntry) (p : List Seg) :
    pageText (scanChildren vocab p).1 = pageText p := by
  induction p with
  | nil => rfl
  | cons s rest ih =>
    rw [scanChildren_cons]
    show pageText ((scanSeg vocab s).1 ++ (scanChildren vocab rest).1) = _
    rw [pageText_append, pageText_scanSeg, ih]
    rfl

theorem scanSeg_zero {vocab : List VocabEntry} {s : Seg}
    (h : (scanSeg vocab s).2 = 0) : (scanSeg vocab s).1 = [s] := by
  cases s with
  | text t =>
    rw [scanSeg]
    by_cases hz : (splitTextNode vocab t).2 = 0
    · rw [if_pos hz]
    · rw [scanSeg, if_neg hz] at h
      exact absurd h hz
  | mark m ds => rfl

theorem scanChildren_zero {vocab : List VocabEntry} {p : List Seg}
    (h : (scanChildren vocab p).2 = 0) : (scanChildren vocab p).1 = p := by
  induction p with
  | nil => rfl
  | cons s rest ih =>
    rw [scanChildren_cons] at h ⊢
    have h2 : (scanSeg vocab s).2 = 0 ∧ (scanChildren vocab rest).2 = 0 := by
      constructor <;> omega
    show (scanSeg vocab s).1 ++ (scanChildren vocab rest).1 = s :: rest
    rw [scanSeg_zero h2.1, ih h2.2]
    rfl

theorem consText_any_isMark (c : Char) (segs : List Seg) :
    (consText c segs).any Seg.isMark = segs.any Seg.isMark := by
  cases segs with
  | nil => rfl
  | cons s rest =>
    cases s with
    | text s0 => simp [consText, Seg.isMark]
    | mark m ds => simp [consText, Seg.isMark]

theorem execLoop_pos_mark (vocab : List VocabEntry) :
    ∀ (fuel : Nat) (prev : Option Char) (t : List Char),
      0 < (execLoop vocab fuel prev t).2 →
      (execLoop vocab fuel prev t).1.any Seg.isMark = true := by
  intro fuel
  induction fuel with
  | zero =>
    intro prev t h
    cases t with
    | nil => cases h
    | cons c rest => cases h
  | succ fuel ih =>
    intro prev t h
    cases t with
    | nil => cases h
    | cons c rest =>
      rw [execLoop] at h ⊢
      cases hm : matchHere vocab prev (c :: rest) with
      | none =>
        rw [hm] at h
        simp only [] at h ⊢
        rw [consText_any_isMark]
        exact ih (some c) rest h
      | some res =>
        obtain ⟨e, m, r⟩ := res
        simp [Seg.isMark]

theorem scanSeg_pos_mark {vocab : List VocabEntry} {s : Seg}
    (h : 0 < (scanSeg vocab s).2) : (scanSeg vocab s).1.any Seg.isMark = true := by
  cases s with
  | text t =>
    rw [scanSeg] at h ⊢
    by_cases hz : (splitTextNode vocab t).2 = 0
    · rw [if_pos hz] at h
      cases h
    · rw [if_neg hz] at h ⊢
      rw [splitTextNode] at h ⊢
      exact execLoop_pos_mark vocab _ _ _ h
  | mark m ds => cases h

theorem scanChildren_pos_mark {vocab : List VocabEntry} {p : List Seg}
    (h : 0 < (scanChildren vocab p).2) :
    (scanChildren vocab p).1.any Seg.isMark = true := by
  induction p with
  | nil => cases h
  | cons s rest ih =>
    rw [scanChildren_cons] at h ⊢
    show ((scanSeg vocab s).1 ++ (scanChildren vocab rest).1).any Seg.isMark = true
    rw [List.any_append]
    by_cases hs : 0 < (scanSeg vocab s).2
    · rw [scanSeg_pos_mark hs]
      rfl
    · have hrest : 0 < (scanChildren vocab rest).2 := by
        simp only [Nat.not_lt, Nat.le_zero] at hs
        omega
      rw [ih hrest]
      simp

theorem normalizePage_allText :
    ∀ p : List Seg, (∀ s ∈ p, Seg.isMark s = false) →
      normalizePage p = if pageText p = [] then [] else [Seg.text (pageText p)] := by
  intro p
  induction p with
  | nil => intro _; rfl
  | cons s rest ih =>
    intro hall
    cases s with
    | mark m ds =>
      have := hall _ (List.mem_cons_self _ _)
      simp [Seg.isMark] at this
    | text s0 =>
      have hrest := ih (fun x hx => hall x (List.mem_cons_of_mem _ hx))
      rw [normalizePage]
      by_cases hs0 : s0 = []
      · rw [if_pos hs0, hrest]
        simp [pageText, segText, hs0]
      · rw [if_neg hs0, hrest]
        by_cases hr : pageText rest = []
        · rw [if_pos hr]
          simp [pageText, segText, hr, hs0]
        · rw [if_neg hr]
          have hne : s0 ++ pageText rest ≠ [] := by
            intro hc
            exact hs0 (List.append_eq_nil.mp hc).1
          simp [pageText, segText, hne]

theorem map_segToText_allText (p : List Seg) :
    ∀ s ∈ p.map segToText, Seg.isMark s = false := by
  intro s hs
  rcases List.mem_map.mp hs with ⟨x, _, rfl⟩
  cases x with
  | text s0 => rfl
  | mark m ds => rfl

theorem pageText_map_segToText (p : List Seg) :
    pageText (p.map segToText) = pageText p := by
  induction p with
  | nil => rfl
  | cons s rest ih =>
    cases s with
    | text s0 => simp only [List.map_cons, pageText, segToText, ih]
    | mark m ds => simp only [List.map_cons, pageText, segToText, segText, ih]

theorem removeHighlights_noMark (p : List Seg) :
    (removeHighlights p).any Seg.isMark = false := by
  rw [removeHighlights]
  by_cases h : p.any Seg.isMark = true
  · rw [if_pos h, normalizePage_allText _ (map_segToText_allText p)]
    split_ifs <;> simp [Seg.isMark]
  · rw [if_neg h]
    rw [Bool.not_eq_true] at h
    exact h

theorem pageText_removeHighlights (p : List Seg) :
    pageText (removeHighlights p) = pageText p := by
  rw [removeHighlights]
  by_cases h : p.any Seg.isMark = true
  · rw [if_pos h, normalizePage_allText _ (map_segToText_allText p)]
    by_cases hp : pageText (p.map segToText) = []
    · rw [if_pos hp]
      rw [← pageText_map_segToText p, hp]
      rfl
    · rw [if_neg hp]
      show pageText (p.map segToText) ++ pageText [] = pageText p
      rw [pageText_map_segToText]
      simp [pageText]
  · rw [if_neg h]

theorem noMark_noAdj_structure :
    ∀ p : List Seg, p.any Seg.isMark = false → noAdjacentTexts p = true →
      p = [] ∨ ∃ t, p = [Seg.text t] := by
  intro p
  match p with
  | [] => exact fun _ _ => Or.inl rfl
  | [s] =>
    intro hm _
    cases s with
    | text t => exact Or.inr ⟨t, rfl⟩
    | mark m ds => simp [Seg.isMark] at hm
  | s1 :: s2 :: rest =>
    intro hm hadj
    cases s1 with
    | mark m ds => simp [Seg.isMark] at hm
    | text t1 =>
      cases s2 with
      | mark m ds => simp [Seg.isMark] at hm
      | text t2 => simp [noAdjacentTexts] at hadj

theorem noAdjacentTexts_removeHighlights (p : List Seg)
    (h : noAdjacentTexts p = true) : noAdjacentTexts (removeHighlights p) = true := by
  rw [removeHighlights]
  by_cases hm : p.any Seg.isMark = true
  · rw [if_pos hm, normalizePage_allText _ (map_segToText_allText p)]
    split_ifs <;> simp [noAdjacentTexts]
  · rw [if_neg hm]
    exact h

theorem removeHighlights_of_noMark {p : List Seg} (h : p.any Seg.isMark = false) :
    removeHighlights p = p := by
  rw [removeHighlights, if_neg]
  rw [h]
  exact Bool.false_ne_true

theorem removeHighlights_scan (vocab : List VocabEntry) (p : List Seg)
    (h : noAdjacentTexts p = true) :
    removeHighlights (scanPageForVocab vocab p).1 = removeHighlights p := by
  have hp2mark : (removeHighlights p).any Seg.isMark = false := removeHighlights_noMark p
  have hp2noadj : noAdjacentTexts (removeHighlights p) = true :=
    noAdjacentTexts_removeHighlights p h
  show removeHighlights
    (if vocab.isEmpty then (removeHighlights p, 0)
      else scanChildren vocab (removeHighlights p)).1 = removeHighlights p
  by_cases hv : vocab.isEmpty = true
  · rw [if_pos hv]
    exact removeHighlights_of_noMark hp2mark
  · rw [if_neg hv]
    by_cases hn : (scanChildren vocab (removeHighlights p)).2 = 0
    · rw [scanChildren_zero hn]
      exact removeHighlights_of_noMark hp2mark
    · rcases noMark_noAdj_structure _ hp2mark hp2noadj with hp2 | ⟨T, hp2⟩
      · rw [hp2] at hn
        exact absurd rfl hn
      · rw [hp2] at hn ⊢
        have hqmark := scanChildren_pos_mark (Nat.pos_of_ne_zero hn)
        rw [removeHighlights, if_pos hqmark,
          normalizePage_allText _ (map_segToText_allText _)]
        have hpt : pageText ((scanChildren vocab [Seg.text T]).1.map segToText) =
            T ++ [] := by
          rw [pageText_map_segToText, pageText_scanChildren]
          rfl
        rw [hpt]
        have hT : T ≠ [] := by
          intro h0
          rw [h0] at hn
          exact hn rfl
        have hne : T ++ [] ≠ [] := by simpa using hT
        rw [if_neg hne]
        simp

/-- C6 amended: on a page whose text children are already merged (no
two adjacent text nodes, the state a freshly parsed DOM is in), scan is
idempotent: running it again on the unchanged result yields the same
match count and the same highlighted page, with no stacked markers. On
a page with adjacent sibling text fragments the claim fails because the
first scan's removal-and-normalize step can merge fragments into new
matches (see the counterexample). -/
theorem claim_scan_idempotent_amended (vocab : List VocabEntry) (p : List Seg)
    (h : noAdjacentTexts p = true) :
    scanPageForVocab vocab (scanPageForVocab vocab p).1 = scanPageForVocab vocab p := by
  have hA := removeHighlights_scan vocab p h
  show (if vocab.isEmpty then (removeHighlights ((scanPageForVocab vocab p).1), 0)
    else scanChildren vocab (removeHighlights ((scanPageForVocab vocab p).1))) =
      scanPageForVocab vocab p
  rw [hA]
  rfl

/-- Vocabulary with the single entry cat, used to instantiate the scan
claims. -/
def vocabCat : List VocabEntry := [⟨"cat", "translation", "", "", "t1"⟩]

/-- A parent with two adjacent sibling text nodes whose concatenation
contains an extra occurrence of the vocabulary word across the sibling
boundary after merging. -/
def adjacentTextPage : List Seg :=
  [Seg.text ['c', 'a'], Seg.text ['t', ' ', 'x', ' ', 'c', 'a', 't']]

/-- C6 counterexample: on a page with adjacent sibling text nodes, the
first scan matches once, but its mark removal on the second scan
normalizes the siblings into one text node in which the word now also
matches at the merged boundary: the second scan reports two matches and
highlights differently, so scan is not idempotent for every page. -/
theorem claim_scan_idempotent_counterexample :
    (scanPageForVocab vocabCat adjacentTextPage).2 = 1 ∧
    (scanPageForVocab vocabCat (scanPageForVocab vocabCat adjacentTextPage).1).2 = 2 ∧
    (1 : Nat) ≠ 2 :=
  ⟨by decide, by decide, by decide⟩

/-- A normalized single-text-node parent used as scan witness. -/
def singleTextPage : List Seg :=
  [Seg.text ['t', 'h', 'e', ' ', 'c', 'a', 't', ' ', 's', 'a', 't']]

theorem claim_scan_idempotent_amended_witness :
    noAdjacentTexts singleTextPage = true ∧
    scanPageForVocab vocabCat (scanPageForVocab vocabCat singleTextPage).1 =
      scanPageForVocab vocabCat singleTextPage :=
  ⟨by decide, claim_scan_idempotent_amended vocabCat singleTextPage (by decide)⟩

theorem pageText_scanPage (vocab : List VocabEntry) (p : List Seg) :
    pageText (scanPageForVocab vocab p).1 = pageText p := by
  show pageText (if vocab.isEmpty then (removeHighlights p, 0)
    else scanChildren vocab (removeHighlights p)).1 = pageText p
  by_cases hv : vocab.isEmpty = true
  · rw [if_pos hv]
    exact pageText_removeHighlights p
  · rw [if_neg hv, pageText_scanChildren]
    exact pageText_removeHighlights p

/-- C7: removing all highlights right after a scan restores the parent
textContent exactly to its pre-scan content: every marker is replaced
by its matched surface text, no marker remains, and when the scan had
produced markers the remaining adjacent text fragments are merged back
into a single text node carrying the original text. -/
theorem claim_removeAll_restores_text (vocab : List VocabEntry) (p : List Seg) :
    pageText (removeHighlights (scanPageForVocab vocab p).1) = pageText p ∧
    (removeHighlights (scanPageForVocab vocab p).1).any Seg.isMark = false ∧
    ((scanPageForVocab vocab p).1.any Seg.isMark = true →
      removeHighlights (scanPageForVocab vocab p).1 =
        if pageText p = [] then [] else [Seg.text (pageText p)]) := by
  refine ⟨?_, removeHighlights_noMark _, ?_⟩
  · rw [pageText_removeHighlights, pageText_scanPage]
  · intro hq
    rw [removeHighlights, if_pos hq, normalizePage_allText _ (map_segToText_allText _),
      pageText_map_segToText, pageText_scanPage]

/-- A parent with one text node containing one standalone occurrence,
used as removal witness. -/
def catSentencePage : List Seg :=
  [Seg.text ['a', ' ', 'c', 'a', 't', ' ', 'h', 'e', 'r', 'e']]

theorem claim_removeAll_restores_text_witness :
    pageText (removeHighlights (scanPageForVocab vocabCat catSentencePage).1) =
      pageText catSentencePage ∧
    (scanPageForVocab vocabCat catSentencePage).1.any Seg.isMark = true ∧
    removeHighlights (scanPageForVocab vocabCat catSentencePage).1 =
      (if pageText catSentencePage = [] then [] else [Seg.text (pageText catSentencePage)]) :=
  ⟨(claim_removeAll_restores_text vocabCat catSentencePage).1, by decide,
   (claim_removeAll_restores_text vocabCat catSentencePage).2.2 (by decide)⟩

/-- C8: every match the scanner produces is a standalone word-boundary
occurrence of a vocabulary word compared case-insensitively (the
alternation branches are escaped, so they match literally); in
particular with vocabulary word cat and page text category the cat sat,
exactly one match is produced, at the standalone occurrence, and none
inside category. -/
theorem claim_word_boundary_matching :
    (∀ (vocab : List VocabEntry) (prev : Option Char) (t : List Char)
        (e : VocabEntry) (m r : List Char),
      matchHere vocab prev t = some (e, m, r) →
      e ∈ vocab ∧ lowerL m = lowerL e.word.data ∧ m ++ r = t ∧ m ≠ [] ∧
      isBoundary prev t.head? = true ∧ isBoundary m.getLast? r.head? = true) ∧
    splitTextNode vocabCat
      ['c','a','t','e','g','o','r','y',' ','t','h','e',' ','c','a','t',' ','s','a','t'] =
      ([Seg.text ['c','a','t','e','g','o','r','y',' ','t','h','e',' '],
        Seg.mark ['c','a','t'] (some (['c','a','t'],
          ['t','r','a','n','s','l','a','t','i','o','n'])),
        Seg.text [' ','s','a','t']], 1) :=
  ⟨fun _ _ _ _ _ _ h => matchHere_sound h, by decide⟩

theorem claim_word_boundary_matching_witness :
    matchHere vocabCat (some ' ') ['c','a','t',' ','s'] =
      some (⟨"cat", "translation", "", "", "t1"⟩, ['c','a','t'], [' ','s']) ∧
    (⟨"cat", "translation", "", "", "t1"⟩ : VocabEntry) ∈ vocabCat ∧
    lowerL ['c','a','t'] =
      lowerL (VocabEntry.word ⟨"cat", "translation", "", "", "t1"⟩).data ∧
    ['c','a','t'] ++ [' ','s'] = ['c','a','t',' ','s'] ∧
    (['c','a','t'] : List Char) ≠ [] ∧
    isBoundary (some ' ') (['c','a','t',' ','s'].head?) = true ∧
    isBoundary (['c','a','t'].getLast?) ([' ','s'].head?) = true := by
  have hm : matchHere vocabCat (some ' ') ['c','a','t',' ','s'] =
      some (⟨"cat", "translation", "", "", "t1"⟩, ['c','a','t'], [' ','s']) := by decide
  have h := claim_word_boundary_matching.1 vocabCat (some ' ') ['c','a','t',' ','s'] _ _ _ hm
  exact ⟨hm, h.1, h.2.1, h.2.2.1, h.2.2.2.1, h.2.2.2.2.1, h.2.2.2.2.2⟩
